import Mathlib

/-!
Verification of the dds incremental-build engine against its specification.

This file shallowly embeds the core of the `dds` build engine —
`src/dds/build/file_deps.cpp` (dependency-info parsing, the metadata store
update protocol and the staleness oracle) and
`src/dds/build/plan/library.cpp` (`library_plan::create`) — and proves or
refutes the frozen claims about it.

Machine integers do not occur in the embedded fragment; file modification
times are opaque tickets, modelled as `Nat`.  Filesystem state is a partial
map from path strings to modification times.  Repository helpers that are
not part of the embedded sources (the SQLite-backed `database`, the shell
tokenizer `split_shell_string`, string utilities, `is_header`, `extend`) are
modelled from the specification's description of them; each such definition
carries a doc comment starting with "Modelled from the spec:".
-/

/-! ## Metadata store (spec §4.2) -/

/-- Row type of the `deps` table: an input path with its recorded mtime. -/
structure input_file_info where
  path : String
  last_mtime : Nat
deriving DecidableEq, Repr

/-- Modelled from the spec: the metadata store (`dds/db/database.hpp`, not
under `src/`) with its two logical tables
`compilations(output_path → command_string)` and
`deps(output_path, input_path, input_mtime)` (§4.2).  Rows are kept in
insertion order. -/
structure database where
  compilations : List (String × String)
  deps : List (String × input_file_info)
deriving DecidableEq, Repr

/-- Modelled from the spec: `record_compilation(output, command)` is an
upsert; it replaces any existing command for that output (§4.2). -/
def database.record_compilation (db : database) (output command : String) : database :=
  { db with compilations :=
      (output, command) :: db.compilations.filter (fun r => r.1 ≠ output) }

/-- Modelled from the spec: `forget_inputs_of(output)` deletes every `deps`
row for that output (§4.2). -/
def database.forget_inputs_of (db : database) (output : String) : database :=
  { db with deps := db.deps.filter (fun r => r.1 ≠ output) }

/-- Modelled from the spec: `record_dep(input, output, mtime)` inserts a
`deps` row (§4.2). -/
def database.record_dep (db : database) (input output : String) (mtime : Nat) : database :=
  { db with deps := db.deps ++ [(output, ⟨input, mtime⟩)] }

/-- Modelled from the spec: `command_of(output)` returns the stored command
if any (§4.2). -/
def database.command_of (db : database) (output : String) : Option String :=
  (db.compilations.find? (fun r => r.1 = output)).map (·.2)

/-- Modelled from the spec: `inputs_of(output)` returns all recorded inputs
with their recorded mtimes; absent iff no row exists (§4.2). -/
def database.inputs_of (db : database) (output : String) : Option (List input_file_info) :=
  let rows := (db.deps.filter (fun r => r.1 = output)).map (·.2)
  if rows.isEmpty then none else some rows

/-! ## Filesystem model

`fs::exists` and `fs::last_write_time` are folded into one partial map:
a path is mapped to `some mtime` when it exists and `none` otherwise
(`fs::last_write_time` throws on a missing path). -/

def FileSys := String → Option Nat

/-! ## Dependency records and the staleness oracle
(`src/dds/build/file_deps.cpp`) -/

/-- The `file_deps_info` from `file_deps.hpp`: output path, input paths in
order, and the command string.  Default-construction gives empty fields. -/
structure file_deps_info where
  output : String := ""
  inputs : List String := []
  command : String := ""
deriving DecidableEq, Repr

/-- The `prior_compilation`: the changed inputs and the previous command. -/
structure prior_compilation where
  newer_inputs : List String := []
  previous_command : String := ""
deriving DecidableEq, Repr

/-- The filter predicate of `get_prior_compilation`
(file_deps.cpp:93–95): an input is changed when it no longer exists or its
current mtime differs from the recorded one. -/
def input_changed (fs : FileSys) (info : input_file_info) : Bool :=
  match fs info.path with
  | none => true
  | some t => t ≠ info.last_mtime

/-- The `dds::get_prior_compilation` (file_deps.cpp:79–102). -/
def get_prior_compilation (db : database) (fs : FileSys) (output_path : String) :
    Option prior_compilation :=
  match db.command_of output_path with
  | none => none
  | some cmd =>
    match db.inputs_of output_path with
    | none => none
    | some inputs =>
      some { newer_inputs := (inputs.filter (input_changed fs)).map (·.path)
             previous_command := cmd }

/-- The recording loop of `update_deps_info` (file_deps.cpp:73–76): stat
each input and insert a `deps` row; `fs::last_write_time` throws when the
input does not exist, modelled as `none`. -/
def record_deps_list (fs : FileSys) (output : String) :
    database → List String → Option database
  | db, [] => some db
  | db, inp :: rest =>
    match fs inp with
    | none => none
    | some m => record_deps_list fs output (db.record_dep inp output m) rest

/-- The `dds::update_deps_info` (file_deps.cpp:69–77): record the command,
forget the prior inputs, then record each new `(input, mtime)` pair. -/
def update_deps_info (db : database) (fs : FileSys) (deps : file_deps_info) :
    Option database :=
  let db1 := db.record_compilation deps.output deps.command
  let db2 := db1.forget_inputs_of deps.output
  record_deps_list fs deps.output db2 deps.inputs

/-- Modelled from the spec: the transaction machinery of the database layer
(not under `src/`) commits the three store operations of `update_deps_info`
as one atomic unit (§4.2); when the update fails partway the transaction
rolls back and the store is left unchanged. -/
def update_deps_info_txn (db : database) (fs : FileSys) (deps : file_deps_info) : database :=
  (update_deps_info db fs deps).getD db

/-- The `deps` rows of an output, in order. -/
def deps_rows (db : database) (output : String) : List input_file_info :=
  (db.deps.filter (fun r => r.1 = output)).map (·.2)

/-! ## Store lemmas -/

lemma deps_rows_record_dep (db : database) (inp out : String) (m : Nat) :
    deps_rows (db.record_dep inp out m) out = deps_rows db out ++ [⟨inp, m⟩] := by
  simp [deps_rows, database.record_dep]

lemma compilations_record_dep (db : database) (inp out : String) (m : Nat) :
    (db.record_dep inp out m).compilations = db.compilations := rfl

lemma command_of_record_compilation (db : database) (out cmd : String) :
    (db.record_compilation out cmd).command_of out = some cmd := by
  simp [database.command_of, database.record_compilation, List.find?]

lemma deps_rows_forget (db : database) (out : String) :
    deps_rows (db.forget_inputs_of out) out = [] := by
  simp only [deps_rows, database.forget_inputs_of, List.filter_filter]
  have h : List.filter
      (fun a : String × input_file_info => decide (a.1 = out) && decide (a.1 ≠ out))
      db.deps = [] := by
    rw [List.filter_eq_nil_iff]
    intro a ha hcontra
    simp only [Bool.and_eq_true, decide_eq_true_eq] at hcontra
    exact hcontra.2 hcontra.1
  rw [h]
  rfl

lemma deps_forget_compilations (db : database) (out : String) :
    (db.forget_inputs_of out).compilations = db.compilations := rfl

lemma inputs_of_def (db : database) (out : String) :
    db.inputs_of out
      = if (deps_rows db out).isEmpty then none else some (deps_rows db out) := rfl

lemma inputs_of_eq_deps_rows (db : database) (out : String) :
    db.inputs_of out = if deps_rows db out = [] then none else some (deps_rows db out) := by
  rw [inputs_of_def]
  rcases h : deps_rows db out with _ | ⟨a, l⟩ <;> simp

/-- Success characterization of the recording loop: the rows of the output
grow by exactly the stated inputs, each with its currently observed mtime,
and the `compilations` table is untouched. -/
lemma record_deps_list_spec (fs : FileSys) (out : String) :
    ∀ (inps : List String) (db db' : database),
      record_deps_list fs out db inps = some db' →
      deps_rows db' out = deps_rows db out ++ inps.map (fun i => ⟨i, (fs i).getD 0⟩)
      ∧ (∀ i ∈ inps, (fs i).isSome)
      ∧ db'.compilations = db.compilations := by
  intro inps
  induction inps with
  | nil =>
    intro db db' h
    simp only [record_deps_list, Option.some.injEq] at h
    subst h
    simp
  | cons inp rest ih =>
    intro db db' h
    simp only [record_deps_list] at h
    rcases hfs : fs inp with _ | m
    · rw [hfs] at h; exact absurd h (by simp)
    · rw [hfs] at h
      obtain ⟨h1, h2, h3⟩ := ih _ _ h
      refine ⟨?_, ?_, ?_⟩
      · rw [h1, deps_rows_record_dep]
        simp [hfs]
      · intro i hi
        rcases List.mem_cons.mp hi with rfl | hi'
        · simp [hfs]
        · exact h2 i hi'
      · rw [h3, compilations_record_dep]

/-- Failure characterization of the recording loop: it fails exactly when
some input cannot be stat'ed. -/
lemma record_deps_list_none (fs : FileSys) (out : String) :
    ∀ (inps : List String) (db : database),
      record_deps_list fs out db inps = none ↔ ∃ i ∈ inps, fs i = none := by
  intro inps
  induction inps with
  | nil => intro db; simp [record_deps_list]
  | cons inp rest ih =>
    intro db
    simp only [record_deps_list]
    rcases hfs : fs inp with _ | m
    · simp [hfs]
    · rw [ih]
      simp [hfs]

/-- What a successful `update_deps_info` leaves in the store. -/
lemma update_deps_info_some_spec (db : database) (fs : FileSys)
    (deps : file_deps_info) (db' : database)
    (h : update_deps_info db fs deps = some db') :
    db'.command_of deps.output = some deps.command
    ∧ deps_rows db' deps.output = deps.inputs.map (fun i => ⟨i, (fs i).getD 0⟩)
    ∧ (∀ i ∈ deps.inputs, (fs i).isSome) := by
  unfold update_deps_info at h
  obtain ⟨h1, h2, h3⟩ := record_deps_list_spec fs deps.output deps.inputs _ _ h
  refine ⟨?_, ?_, h2⟩
  · rw [database.command_of, h3, deps_forget_compilations, ← database.command_of,
      command_of_record_compilation]
  · rw [h1, deps_rows_forget]
    simp


/-! ## Claim C1: the staleness oracle -/

lemma input_changed_iff (fs : FileSys) (info : input_file_info) :
    input_changed fs info = true ↔
      (fs info.path = none ∨ ∀ t, fs info.path = some t → t ≠ info.last_mtime) := by
  unfold input_changed
  rcases h : fs info.path with _ | t <;> simp [h]

/-- C1: `get_prior_compilation` returns `absent` exactly when `command_of`
or `inputs_of` is absent; otherwise it returns the stored command together
with exactly those recorded inputs whose path does not currently exist or
whose current mtime differs from the recorded one, and the changed-inputs
list is empty when every recorded input exists with its recorded mtime. -/
theorem get_prior_compilation_matches_spec (db : database) (fs : FileSys) (out : String) :
    ((db.command_of out = none ∨ db.inputs_of out = none) ↔
        get_prior_compilation db fs out = none)
    ∧ (∀ cmd inputs, db.command_of out = some cmd → db.inputs_of out = some inputs →
        ∃ pc, get_prior_compilation db fs out = some pc
          ∧ pc.previous_command = cmd
          ∧ (∀ p, p ∈ pc.newer_inputs ↔
              ∃ info ∈ inputs, info.path = p
                ∧ (fs info.path = none ∨ ∀ t, fs info.path = some t → t ≠ info.last_mtime))
          ∧ ((∀ info ∈ inputs, fs info.path = some info.last_mtime) →
              pc.newer_inputs = [])) := by
  constructor
  · constructor
    · rintro (h | h)
      · simp [get_prior_compilation, h]
      · rcases hc : db.command_of out with _ | cmd
        · simp [get_prior_compilation, hc]
        · simp [get_prior_compilation, hc, h]
    · intro h
      rcases hc : db.command_of out with _ | cmd
      · exact Or.inl rfl
      · rcases hi : db.inputs_of out with _ | inputs
        · exact Or.inr rfl
        · rw [get_prior_compilation, hc, hi] at h
          exact absurd h (by simp)
  · intro cmd inputs hcmd hinp
    refine ⟨_, by rw [get_prior_compilation, hcmd, hinp], rfl, ?_, ?_⟩
    · intro p
      simp only [List.mem_map, List.mem_filter]
      constructor
      · rintro ⟨info, ⟨hmem, hch⟩, rfl⟩
        exact ⟨info, hmem, rfl, (input_changed_iff fs info).mp hch⟩
      · rintro ⟨info, hmem, rfl, hch⟩
        exact ⟨info, ⟨hmem, (input_changed_iff fs info).mpr hch⟩, rfl⟩
    · intro hall
      have : inputs.filter (input_changed fs) = [] := by
        rw [List.filter_eq_nil_iff]
        intro info hmem hch
        rcases (input_changed_iff fs info).mp hch with hnone | hne
        · rw [hall info hmem] at hnone; exact Option.noConfusion hnone
        · exact hne info.last_mtime (hall info hmem) rfl
      simp [this]

/-- Witness for C1: the store scenario of spec §8.4 — with `foo.c`
unchanged at mtime 1000 the oracle reports a prior compilation with an
empty changed-inputs list, and with `foo.c` touched to mtime 1001 it
reports `foo.c` as changed. -/
theorem get_prior_compilation_matches_spec_witness :
    (∃ pc, get_prior_compilation
        ⟨[("foo.o", "clang -c foo.c")], [("foo.o", ⟨"foo.c", 1000⟩)]⟩
        (fun p => if p = "foo.c" then some 1000 else none) "foo.o" = some pc
      ∧ pc.newer_inputs = [])
    ∧ (∃ pc, get_prior_compilation
        ⟨[("foo.o", "clang -c foo.c")], [("foo.o", ⟨"foo.c", 1000⟩)]⟩
        (fun p => if p = "foo.c" then some 1001 else none) "foo.o" = some pc
      ∧ "foo.c" ∈ pc.newer_inputs) := by
  constructor
  · obtain ⟨pc, hpc, -, -, hempty⟩ :=
      (get_prior_compilation_matches_spec
        ⟨[("foo.o", "clang -c foo.c")], [("foo.o", ⟨"foo.c", 1000⟩)]⟩
        (fun p => if p = "foo.c" then some 1000 else none) "foo.o").2
        "clang -c foo.c" [⟨"foo.c", 1000⟩] (by decide) (by decide)
    exact ⟨pc, hpc, hempty (by decide)⟩
  · obtain ⟨pc, hpc, -, hmem, -⟩ :=
      (get_prior_compilation_matches_spec
        ⟨[("foo.o", "clang -c foo.c")], [("foo.o", ⟨"foo.c", 1000⟩)]⟩
        (fun p => if p = "foo.c" then some 1001 else none) "foo.o").2
        "clang -c foo.c" [⟨"foo.c", 1000⟩] (by decide) (by decide)
    refine ⟨pc, hpc, (hmem "foo.c").mpr ?_⟩
    refine ⟨⟨"foo.c", 1000⟩, by decide, rfl, Or.inr ?_⟩
    intro t ht
    simp only [if_pos rfl] at ht
    cases ht
    decide

/-! ## Claim C3: the update protocol -/

/-- Shared content of C3 and C4: a successful update stores the command and
exactly the new inputs with their observed mtimes. -/
lemma update_deps_info_full_record (db : database) (fs : FileSys)
    (deps : file_deps_info) (db' : database)
    (h : update_deps_info db fs deps = some db') :
    db'.command_of deps.output = some deps.command
    ∧ (deps_rows db' deps.output).map input_file_info.path = deps.inputs
    ∧ (∀ info ∈ deps_rows db' deps.output, fs info.path = some info.last_mtime) := by
  obtain ⟨h1, h2, h3⟩ := update_deps_info_some_spec db fs deps db' h
  refine ⟨h1, ?_, ?_⟩
  · rw [h2, List.map_map]
    have hcomp : (input_file_info.path ∘ fun i =>
        ({ path := i, last_mtime := (fs i).getD 0 } : input_file_info)) = id := by
      funext i; rfl
    rw [hcomp, List.map_id]
  · intro info hmem
    rw [h2] at hmem
    obtain ⟨i, hi, rfl⟩ := List.mem_map.mp hmem
    have := h3 i hi
    rcases hfs : fs i with _ | m
    · rw [hfs] at this; exact absurd this (by simp)
    · simp [hfs]

/-- C3 (amended): after a successful `update_deps_info(db, deps)` the store
holds `deps.command` as the command of `deps.output`; the recorded inputs
are exactly `deps.inputs`, each paired with the mtime observed at update
time; no inputs from an earlier record of the same output remain; and —
provided `deps.inputs` is nonempty — `inputs_of(deps.output)` is not
absent.  (When `deps.inputs` is empty the store keeps no row for the
output, so `inputs_of` is absent; see the counterexample.) -/
theorem update_deps_info_matches_spec (db : database) (fs : FileSys)
    (deps : file_deps_info) (db' : database)
    (h : update_deps_info db fs deps = some db') :
    db'.command_of deps.output = some deps.command
    ∧ (deps_rows db' deps.output).map input_file_info.path = deps.inputs
    ∧ (∀ info ∈ deps_rows db' deps.output, fs info.path = some info.last_mtime)
    ∧ (deps.inputs ≠ [] → db'.inputs_of deps.output ≠ none) := by
  obtain ⟨h1, h2, h3⟩ := update_deps_info_full_record db fs deps db' h
  refine ⟨h1, h2, h3, ?_⟩
  intro hne
  rw [inputs_of_eq_deps_rows]
  have hrows : deps_rows db' deps.output ≠ [] := by
    intro hcon
    rw [hcon] at h2
    exact hne h2.symm
  simp [hrows]

/-- Witness for C3: updating `foo.o` with input `foo.c` (present at
mtime 1000) over a store holding a stale row leaves exactly `foo.c`/1000
recorded and the command stored. -/
theorem update_deps_info_matches_spec_witness :
    (⟨[("foo.o", "cc")], [("foo.o", ⟨"foo.c", 1000⟩)]⟩ : database).command_of "foo.o"
        = some "cc"
    ∧ (deps_rows ⟨[("foo.o", "cc")], [("foo.o", ⟨"foo.c", 1000⟩)]⟩ "foo.o").map
        input_file_info.path = ["foo.c"]
    ∧ (∀ info ∈ deps_rows ⟨[("foo.o", "cc")], [("foo.o", ⟨"foo.c", 1000⟩)]⟩ "foo.o",
        (fun p => if p = "foo.c" then some 1000 else none : FileSys) info.path
          = some info.last_mtime)
    ∧ (["foo.c"] ≠ ([] : List String) →
        (⟨[("foo.o", "cc")], [("foo.o", ⟨"foo.c", 1000⟩)]⟩ : database).inputs_of "foo.o"
          ≠ none) :=
  update_deps_info_matches_spec
    ⟨[], [("foo.o", ⟨"old.h", 5⟩)]⟩
    (fun p => if p = "foo.c" then some 1000 else none)
    { output := "foo.o", inputs := ["foo.c"], command := "cc" }
    ⟨[("foo.o", "cc")], [("foo.o", ⟨"foo.c", 1000⟩)]⟩
    (by decide)

/-- Counterexample for C3 as stated: a successful update whose `deps.inputs`
is empty leaves `inputs_of(output)` absent, contradicting the claim's
"`inputs_of(deps.output)` is not absent" for every deps record. -/
theorem update_deps_info_claim_counterexample :
    update_deps_info ⟨[], []⟩ (fun _ => none : FileSys)
        { output := "foo.o", inputs := [], command := "cc" }
      = some ⟨[("foo.o", "cc")], []⟩
    ∧ (⟨[("foo.o", "cc")], []⟩ : database).inputs_of "foo.o" = none := by
  decide

/-! ## Claim C4: atomicity of the update -/

/-- C4: under the spec's transactional commit, an attempted update leaves
the store either exactly as it was (the full prior record) or holding the
full new record — the stored command is `deps.command`, the rows for
`deps.output` are exactly `deps.inputs` with their observed mtimes — and
never a mixture. -/
theorem update_deps_info_txn_atomic (db : database) (fs : FileSys)
    (deps : file_deps_info) :
    update_deps_info_txn db fs deps = db
    ∨ ((update_deps_info_txn db fs deps).command_of deps.output = some deps.command
       ∧ (deps_rows (update_deps_info_txn db fs deps) deps.output).map
           input_file_info.path = deps.inputs
       ∧ ∀ info ∈ deps_rows (update_deps_info_txn db fs deps) deps.output,
           fs info.path = some info.last_mtime) := by
  rcases h : update_deps_info db fs deps with _ | db'
  · left
    rw [update_deps_info_txn, h]
    rfl
  · right
    have htxn : update_deps_info_txn db fs deps = db' := by
      rw [update_deps_info_txn, h]; rfl
    rw [htxn]
    exact update_deps_info_full_record db fs deps db' h

/-! ## Make-style dependency parser (`src/dds/build/file_deps.cpp:19-46`) -/

/-- The single-quote character, by code point (39). -/
def squote : Char := Char.ofNat 39

/-- The double-quote character, by code point (34). -/
def dquote : Char := Char.ofNat 34

/-- Modelled from the spec: the `replace(str, "\\\n", " ")` string utility
(`dds/util/string.hpp`, not under `src/`): "replace every `\<newline>` with
a single space" (§4.1), specialized to that fixed pattern. -/
def collapse_continuations : List Char → List Char
  | [] => []
  | [c] => [c]
  | c1 :: c2 :: rest =>
    if c1 = '\\' ∧ c2 = '\n' then ' ' :: collapse_continuations rest
    else c1 :: collapse_continuations (c2 :: rest)

/-- Modelled from the spec: `split_shell_string` (`dds/util/shlex.hpp`, not
under `src/`): "split by shell tokenization rules (honoring quoting and
escapes)" (§4.1).  Unquoted whitespace separates tokens; single quotes make
everything literal; inside double quotes a backslash escapes the next
character; an unquoted backslash escapes the next character, except that
backslash-newline is a line continuation and both characters vanish.  The
second argument is the open quote, the third the token accumulated so far
(`none`: no token in progress). -/
def shlex_run : List Char → Option Char → Option (List Char) → List String
  | [], _, none => []
  | [], _, some cur => [String.mk cur]
  | c :: cs, some q, cur =>
    if c = q then shlex_run cs none (some (cur.getD []))
    else if q = dquote ∧ c = '\\' then
      match cs with
      | [] => shlex_run [] (some q) (some ((cur.getD []) ++ [c]))
      | d :: ds => shlex_run ds (some q) (some ((cur.getD []) ++ [d]))
    else shlex_run cs (some q) (some ((cur.getD []) ++ [c]))
  | c :: cs, none, cur =>
    if c = ' ' ∨ c = '\t' ∨ c = '\n' then
      match cur with
      | none => shlex_run cs none none
      | some t => String.mk t :: shlex_run cs none none
    else if c = squote ∨ c = dquote then shlex_run cs (some c) (some (cur.getD []))
    else if c = '\\' then
      match cs with
      | [] => shlex_run [] none (some ((cur.getD []) ++ [c]))
      | d :: ds =>
        if d = '\n' then shlex_run ds none cur
        else shlex_run ds none (some ((cur.getD []) ++ [d]))
    else shlex_run cs none (some ((cur.getD []) ++ [c]))

/-- Modelled from the spec: `split_shell_string` applied to a string. -/
def split_shell_string (s : String) : List String :=
  shlex_run s.data none none

/-- The `head.substr(0, head.length() - 1)`: drop the final character. -/
def drop_last_char (s : String) : String := String.mk s.data.dropLast

/-- Modelled from the spec: the `ends_with` string utility (not under
`src/`): whether `suffix` is a suffix of `s`. -/
def ends_with (s suffix : String) : Bool := suffix.data.isSuffixOf s.data

/-- Diagnostic of the empty-split branch (file_deps.cpp:29-31). -/
def mkfile_empty_split_msg : String :=
  "Invalid deps listing. Shell split was empty. This is almost certainly a bug."

/-- Diagnostic of the missing-colon branch (file_deps.cpp:36-40). -/
def mkfile_no_colon_msg : String :=
  "Invalid deps listing. Leader item is not colon-terminated. This is probably a bug."

/-- The `dds::parse_mkfile_deps_str` (file_deps.cpp:19-46).  The pair's second
component is the list of critical diagnostics emitted.  Note: the function
computes the continuation-collapsed string `no_newlines` but tokenizes the
ORIGINAL string `str` (file_deps.cpp:23-25); `no_newlines` is dead. -/
def parse_mkfile_deps_str (str : String) : file_deps_info × List String :=
  let no_newlines := String.mk (collapse_continuations str.data)
  let _ := no_newlines
  match split_shell_string str with
  | [] => ({}, [mkfile_empty_split_msg])
  | head :: rest =>
    if ends_with head ":" then
      ({ output := drop_last_char head, inputs := rest, command := "" }, [])
    else
      ({}, [mkfile_no_colon_msg])

/-- The Make-style algorithm as the spec words it (§4.1, claim C2): collapse
`\<newline>` continuations FIRST, then tokenize the collapsed string.  Kept
for comparison with `parse_mkfile_deps_str`, which tokenizes the original
string. -/
def parse_mkfile_deps_str_as_specified (str : String) : file_deps_info × List String :=
  let no_newlines := String.mk (collapse_continuations str.data)
  match split_shell_string no_newlines with
  | [] => ({}, [mkfile_empty_split_msg])
  | head :: rest =>
    if ends_with head ":" then
      ({ output := drop_last_char head, inputs := rest, command := "" }, [])
    else
      ({}, [mkfile_no_colon_msg])

/-- C2 (code bug): the claim says the parser tokenizes the
continuation-collapsed string; `parse_mkfile_deps_str` tokenizes the
ORIGINAL string.  On the claim's concrete blob the two agree, but on
`"foo.o: a\<newline>b"` (a continuation not surrounded by blanks) the code
yields the single input `ab` — the shell tokenizer swallows the
backslash-newline inside the token — while the claimed algorithm yields the
two inputs `a` and `b`. -/
theorem parse_mkfile_deps_str_tokenizes_original_string :
    (parse_mkfile_deps_str "foo.o: a.h \\\n  b.h\n").1
        = { output := "foo.o", inputs := ["a.h", "b.h"], command := "" }
    ∧ (parse_mkfile_deps_str "foo.o: a\\\nb").1
        = { output := "foo.o", inputs := ["ab"], command := "" }
    ∧ (parse_mkfile_deps_str_as_specified "foo.o: a\\\nb").1
        = { output := "foo.o", inputs := ["a", "b"], command := "" }
    ∧ (parse_mkfile_deps_str "foo.o: a\\\nb").1
        ≠ (parse_mkfile_deps_str_as_specified "foo.o: a\\\nb").1 := by
  decide

/-- C9: when the token stream is empty or the first token does not end in a
colon, `parse_mkfile_deps_str` returns an empty result (no output path, no
inputs) and emits a critical diagnostic. -/
theorem parse_mkfile_deps_str_error_cases (str : String)
    (h : ((split_shell_string str).head?.all (fun t => !(ends_with t ":"))) = true) :
    (parse_mkfile_deps_str str).1.output = ""
    ∧ (parse_mkfile_deps_str str).1.inputs = []
    ∧ (parse_mkfile_deps_str str).2 ≠ [] := by
  rcases hs : split_shell_string str with _ | ⟨t, ts⟩ <;> rw [hs] at h
  · refine ⟨?_, ?_, ?_⟩ <;> simp [parse_mkfile_deps_str, hs, mkfile_empty_split_msg]
  · simp only [List.head?_cons, Option.all_some, Bool.not_eq_true'] at h
    refine ⟨?_, ?_, ?_⟩ <;> simp [parse_mkfile_deps_str, hs, h, mkfile_no_colon_msg]

/-- Witness for C9: the spec's scenario 2, the colon-less blob
`"foo.o a.h b.h"`. -/
theorem parse_mkfile_deps_str_error_cases_witness :
    (parse_mkfile_deps_str "foo.o a.h b.h").1.output = ""
    ∧ (parse_mkfile_deps_str "foo.o a.h b.h").1.inputs = []
    ∧ (parse_mkfile_deps_str "foo.o a.h b.h").2 ≠ [] :=
  parse_mkfile_deps_str_error_cases "foo.o a.h b.h" (by decide)

/-! ## Prefix-line (MSVC) dependency parser
(`src/dds/build/file_deps.cpp:48-67`) -/

/-- Whitespace characters recognized by the trimming helper. -/
def is_space (c : Char) : Bool := c = ' ' ∨ c = '\t' ∨ c = '\n' ∨ c = '\r'

/-- Modelled from the spec: the `trim_view` string utility (not under
`src/`): strips leading and trailing whitespace ("trimmed", §4.1). -/
def trim_view (s : String) : String :=
  String.mk (((s.data.dropWhile is_space).reverse.dropWhile is_space).reverse)

/-- Modelled from the spec: the `starts_with` string utility (not under
`src/`): whether `lead` begins `s`. -/
def starts_with (s lead : String) : Bool := lead.data.isPrefixOf s.data

/-- The `substr(n)`: drop the first `n` characters. -/
def str_drop (s : String) (n : Nat) : String := String.mk (s.data.drop n)

/-- Auxiliary splitter: cut a character sequence at every newline, keeping
a (possibly empty) final segment. -/
def split_nl : List Char → List (List Char)
  | [] => [[]]
  | c :: cs =>
    if c = '\n' then [] :: split_nl cs
    else
      match split_nl cs with
      | [] => [[c]]
      | l :: ls => (c :: l) :: ls

/-- Modelled from the spec: `split_view(output, "\n")` (string utility, not
under `src/`).  The parser "scans line by line" (§4.1) and scenario 3 fixes
the line discipline: a trailing newline terminates the last line rather
than opening an empty one. -/
def split_lines (s : String) : List String :=
  let parts := split_nl s.data
  (if parts.getLast? = some [] then parts.dropLast else parts).map String.mk

/-- Return type of `parse_msvc_output_for_deps`. -/
structure msvc_deps_info where
  deps : file_deps_info
  cleaned_output : String
deriving DecidableEq, Repr

/-- One iteration of the line loop (file_deps.cpp:52-61), accumulating the
cleaned output as a character sequence (a `std::string`) and the inputs.
`canon` stands for `fs::weakly_canonical`, which depends on the filesystem
and is a parameter of the embedding. -/
def msvc_line_step (canon : String → String) (leader : String)
    (acc : List Char × List String) (full_line : String) : List Char × List String :=
  let trimmed := trim_view full_line
  if !(starts_with trimmed leader) then
    (acc.1 ++ full_line.data ++ ['\n'], acc.2)
  else
    (acc.1, acc.2 ++ [canon (trim_view (str_drop trimmed leader.length))])

/-- The `dds::parse_msvc_output_for_deps` (file_deps.cpp:48-67): the final
`pop_back` removes the trailing newline when the cleaned output is
nonempty. -/
def parse_msvc_output_for_deps (canon : String → String) (output leader : String) :
    msvc_deps_info :=
  let r := (split_lines output).foldl (msvc_line_step canon leader) ([], [])
  let cleaned := if r.1 = [] then r.1 else r.1.dropLast
  ⟨{ output := "", inputs := r.2, command := "" }, String.mk cleaned⟩

/-- Characterization of the line loop: matching lines contribute inputs in
order, non-matching lines are appended verbatim, each line terminated by a
newline. -/
lemma msvc_fold_spec (canon : String → String) (leader : String) :
    ∀ (lines : List String) (acc : List Char × List String),
      lines.foldl (msvc_line_step canon leader) acc
        = (acc.1 ++ ((lines.filter
              (fun l => !(starts_with (trim_view l) leader))).map
                (fun l => l.data ++ ['\n'])).flatten,
           acc.2 ++ (lines.filter (fun l => starts_with (trim_view l) leader)).map
              (fun l => canon (trim_view (str_drop (trim_view l) leader.length)))) := by
  intro lines
  induction lines with
  | nil => intro acc; simp
  | cons l rest ih =>
    intro acc
    rcases hm : starts_with (trim_view l) leader with _ | _
    · rw [List.foldl_cons]
      rw [show msvc_line_step canon leader acc l
            = (acc.1 ++ l.data ++ ['\n'], acc.2) by simp [msvc_line_step, hm]]
      rw [ih]
      simp [hm]
    · rw [List.foldl_cons]
      rw [show msvc_line_step canon leader acc l
            = (acc.1, acc.2 ++ [canon (trim_view (str_drop (trim_view l) leader.length))])
          by simp [msvc_line_step, hm]]
      rw [ih]
      simp [hm]

lemma intercalate_newline_cons :
    ∀ (as : List (List Char)) (a : List Char),
      List.intercalate ['\n'] (a :: as)
        = a ++ (as.map (fun x => '\n' :: x)).flatten := by
  intro as
  induction as with
  | nil => intro a; simp [List.intercalate]
  | cons b t ih =>
    intro a
    have hbt := ih b
    simp only [List.intercalate] at hbt ⊢
    rw [show List.intersperse ['\n'] (a :: b :: t)
          = a :: ['\n'] :: List.intersperse ['\n'] (b :: t) from rfl]
    simp only [List.flatten_cons] at hbt ⊢
    rw [show (List.intersperse ['\n'] (b :: t)).flatten
          = b ++ (t.map (fun x => '\n' :: x)).flatten from hbt]
    simp

lemma flatten_append_newline :
    ∀ (as : List (List Char)) (a : List Char),
      ((a :: as).map (fun l => l ++ ['\n'])).flatten
        = (a ++ (as.map (fun x => '\n' :: x)).flatten) ++ ['\n'] := by
  intro as
  induction as with
  | nil => intro a; simp
  | cons b t ih =>
    intro a
    have hb := ih b
    rw [List.map_cons, List.flatten_cons, hb]
    simp

lemma string_intercalate_go_data (s : String) :
    ∀ (as : List String) (acc : String),
      (String.intercalate.go acc s as).data
        = acc.data ++ (as.map (fun a => s.data ++ a.data)).flatten := by
  intro as
  induction as with
  | nil => intro acc; simp [String.intercalate.go]
  | cons b t ih =>
    intro acc
    rw [String.intercalate.go, ih]
    simp

lemma string_intercalate_data (ls : List String) :
    (String.intercalate "\n" ls).data
      = List.intercalate ['\n'] (ls.map String.data) := by
  rcases ls with _ | ⟨a, as⟩
  · simp [String.intercalate, List.intercalate]
  · rw [String.intercalate, string_intercalate_go_data, List.map_cons,
      intercalate_newline_cons]
    congr 1
    rw [List.map_map]
    rfl

/-- C5: each line whose trimmed form starts with the leader contributes one
input (the remainder after the leader, trimmed and canonicalized), in line
order; every non-matching line is appended verbatim and in order to the
cleaned output, with a single trailing newline stripped (the non-matching
lines joined by newlines); in particular on the spec's scenario-3 input the
cleaned output is exactly `"hello\nworld"` with no trailing newline. -/
theorem parse_msvc_output_for_deps_matches_spec
    (canon : String → String) (output leader : String) :
    (parse_msvc_output_for_deps canon output leader).deps.inputs
      = ((split_lines output).filter (fun l => starts_with (trim_view l) leader)).map
          (fun l => canon (trim_view (str_drop (trim_view l) leader.length)))
    ∧ (parse_msvc_output_for_deps canon output leader).cleaned_output
      = String.intercalate "\n"
          ((split_lines output).filter (fun l => !(starts_with (trim_view l) leader)))
    ∧ (parse_msvc_output_for_deps (fun p => p)
        "Note: including file: C:\\x\\y.h\nhello\nNote: including file:  C:\\x\\z.h\nworld\n"
        "Note: including file:").cleaned_output = "hello\nworld"
    ∧ (parse_msvc_output_for_deps (fun p => p)
        "Note: including file: C:\\x\\y.h\nhello\nNote: including file:  C:\\x\\z.h\nworld\n"
        "Note: including file:").deps.inputs = ["C:\\x\\y.h", "C:\\x\\z.h"] := by
  have hfold := msvc_fold_spec canon leader (split_lines output) ([], [])
  have h1 : (parse_msvc_output_for_deps canon output leader).deps.inputs
      = ((split_lines output).foldl (msvc_line_step canon leader) ([], [])).2 := rfl
  have h2 : (parse_msvc_output_for_deps canon output leader).cleaned_output
      = String.mk
          (if ((split_lines output).foldl (msvc_line_step canon leader) ([], [])).1 = []
           then ((split_lines output).foldl (msvc_line_step canon leader) ([], [])).1
           else ((split_lines output).foldl
                  (msvc_line_step canon leader) ([], [])).1.dropLast) := rfl
  refine ⟨?_, ?_, by rfl, by rfl⟩
  · rw [h1, hfold]
    simp
  · rw [h2, hfold]
    rcases hnm : (split_lines output).filter
        (fun l => !(starts_with (trim_view l) leader)) with _ | ⟨a, as⟩
    · simp [String.intercalate]
    · have hflat : ((a :: as).map (fun l : String => l.data ++ ['\n'])).flatten
          = ((a.data ++ ((as.map String.data).map (fun x => '\n' :: x)).flatten) ++ ['\n']) := by
        have := flatten_append_newline (as.map String.data) a.data
        rw [← this]
        rw [show (a :: as).map (fun l : String => l.data ++ ['\n'])
              = ((a :: as).map String.data).map (fun l => l ++ ['\n']) by
            rw [List.map_map]; rfl]
        rfl
      rw [hflat]
      simp only [List.nil_append]
      have hne : (a.data ++ ((as.map String.data).map (fun x => '\n' :: x)).flatten)
          ++ ['\n'] ≠ [] := by simp
      rw [if_neg hne, List.dropLast_concat]
      apply String.ext
      rw [string_intercalate_data, List.map_cons, intercalate_newline_cons]

/-! ## Library plan construction (`src/dds/build/plan/library.cpp`)

Filesystem paths are modelled as component lists; `path / sub` is list
append.  `fs::path::parent_path()` drops the last component,
`fs::path::filename()` is the last component, and `fs::path::stem()` strips
the final dot-extension of the filename. -/

/-- A path, as its list of components. -/
abbrev BuildPath := List String

/-- The `dds::source_kind` (`dds/sdist/file.hpp`). -/
inductive source_kind
  | source
  | header
  | header_impl
  | header_template
  | app
  | test
deriving DecidableEq, Repr

/-- Modelled from the spec: `is_header` (source-kind helper, not under
`src/`).  Public `include/` "must all be headers or header templates;
non-headers there cause a warning" (§3 invariants; the warning text at
library.cpp:75-77 says "header or header template files"). -/
def is_header : source_kind → Bool
  | .header => true
  | .header_template => true
  | _ => false

/-- The `dds::source_file`: absolute path, path relative to the source root,
and classification kind. -/
structure source_file where
  path : BuildPath
  relative_path : BuildPath
  kind : source_kind
deriving DecidableEq, Repr

/-- The `shared_compile_file_rules`: include directories, `uses`, and the two
flags.  Library usage references (`lm::usage`) are modelled by their
name strings. -/
structure shared_compile_file_rules where
  include_dirs : List BuildPath := []
  uses : List String := []
  enable_warnings : Bool := false
  syntax_only : Bool := false
deriving DecidableEq, Repr

/-- The `dds::library_root` as `library_plan::create` consumes it: the path
namespace, the manifest's name / `uses` / `links`, the collected sources of
`src/` and `include/` (absent when the directory does not exist), and the
public/private compile-rule appenders
(`append_public_compile_rules` / `append_private_compile_rules`, whose
bodies live outside `src/` and are kept abstract). -/
structure library_root where
  path_namespace : BuildPath
  manifest_name : String
  manifest_uses : List String
  manifest_links : List String
  src_sources : Option (List source_file)
  include_sources : Option (List source_file)
  apply_public_rules : shared_compile_file_rules → shared_compile_file_rules
  apply_private_rules : shared_compile_file_rules → shared_compile_file_rules

/-- The `library_build_params`. -/
structure library_build_params where
  out_subdir : BuildPath := []
  build_tests : Bool := false
  build_apps : Bool := false
  enable_warnings : Bool := false
  test_uses : List String := []

/-- The `compile_file_plan`: rules, the source, the qualified name and the
output subdirectory. -/
structure compile_file_plan where
  rules : shared_compile_file_rules
  source : source_file
  qualifier : String
  subdir : BuildPath
deriving DecidableEq, Repr

/-- The `create_archive_plan`. -/
structure create_archive_plan where
  name : String
  qual_name : String
  out_dir : BuildPath
  compile_files : List compile_file_plan
deriving DecidableEq, Repr

/-- The `link_executable_plan`: linker inputs, the entry compile node, the
output subdirectory, and the executable stem. -/
structure link_executable_plan where
  links : List String
  compile : compile_file_plan
  subdir : BuildPath
  stem : String
deriving DecidableEq, Repr

/-- The `render_template_plan`. -/
structure render_template_plan where
  source : source_file
  subdir : BuildPath
deriving DecidableEq, Repr

/-- The `dds::library_plan` (without the back-reference to the library). -/
structure library_plan where
  qual_name : String
  out_dir : BuildPath
  archive : Option create_archive_plan
  link_executables : List link_executable_plan
  templates : List render_template_plan
  header_indep : List compile_file_plan
deriving DecidableEq, Repr

/-- Index of the last dot in a character sequence, when any. -/
def last_dot_index : List Char → Option Nat
  | [] => none
  | c :: cs =>
    match last_dot_index cs with
    | some i => some (i + 1)
    | none => if c = '.' then some 0 else none

/-- The `fs::path::stem()` on a filename: the filename with its final
dot-extension removed; `"."`, `".."` and a leading-dot-only name keep their
form. -/
def pstem (name : String) : String :=
  if name = "." ∨ name = ".." then name
  else
    match last_dot_index name.data with
    | none => name
    | some i => if i = 0 then name else String.mk (name.data.take i)

/-- The `fs::path::filename()`: the last component. -/
def path_filename (p : BuildPath) : String := p.getLast?.getD ""

/-- The sources collected from `src/` (empty when the directory does not
exist), library.cpp:48-68. -/
def src_list (lib : library_root) : List source_file := lib.src_sources.getD []

/-- The sources collected from `include/` (empty when the directory does
not exist), library.cpp:70-83. -/
def include_list (lib : library_root) : List source_file := lib.include_sources.getD []

/-- The codegen include directory `__dds/gen/<subdir>`
(`rebase_gen_incdir`, library.cpp:19-21). -/
def rebase_gen_incdir (subdir : BuildPath) : BuildPath := ["__dds", "gen"] ++ subdir

/-- The body of the executable-link loop of `library_plan::create`
(library.cpp:160-185): skip tests when `build_tests` is off and apps when
`build_apps` is off; tests link `test_links` with `test_rules` and go under
`out_dir/test`; the stem strips two extensions. -/
def link_exe_entry (params : library_build_params)
    (compile_rules test_rules : shared_compile_file_rules)
    (links test_links : List String) (out_dir : BuildPath) (qual_name : String)
    (source : source_file) : Option link_executable_plan :=
  let is_test := source.kind = source_kind.test
  if is_test ∧ !params.build_tests then none
  else if ¬ is_test ∧ !params.build_apps then none
  else
    let subdir_base := if is_test then out_dir ++ ["test"] else out_dir
    let subdir := subdir_base ++ source.relative_path.dropLast
    let rules := if is_test then test_rules else compile_rules
    let exe_links := if is_test then test_links else links
    some ⟨exe_links,
          compile_file_plan.mk rules source qual_name (out_dir ++ ["obj"]),
          subdir,
          pstem (pstem (path_filename source.path))⟩

/-- The `dds::library_plan::create` (library.cpp:31-200).  The second component
collects the paths warned about by the `include/` scan (library.cpp:74-78).
The repository's `extend` utility (`dds/util/algo.hpp`, not under `src/`)
appends a range to a container and is rendered as `++`. -/
def library_plan.create (lib : library_root) (params : library_build_params)
    (qual_name_arg : Option String) : library_plan × List BuildPath :=
  let out_dir := params.out_subdir ++ lib.path_namespace
  let qual_name := qual_name_arg.getD lib.manifest_name
  let srcs := src_list lib
  let app_sources := srcs.filter (fun sf => sf.kind = .app)
  let test_sources := srcs.filter (fun sf => sf.kind = .test)
  let lib_sources := srcs.filter (fun sf => sf.kind = .source)
  let template_sources := srcs.filter (fun sf => sf.kind = .header_template)
  let header_sources0 := srcs.filter (fun sf => sf.kind = .header)
  let incs := include_list lib
  let warnings := (incs.filter (fun sf => !(is_header sf.kind))).map (fun sf => sf.path)
  let public_header_sources0 := incs.filter (fun sf => sf.kind = .header)
  let header_sources := if params.build_tests then header_sources0 else []
  let public_header_sources := if params.build_tests then public_header_sources0 else []
  let rules0 := lib.apply_public_rules {}
  let rules1 := { rules0 with enable_warnings := params.enable_warnings
                              uses := lib.manifest_uses }
  let codegen_subdir := rebase_gen_incdir out_dir
  let rules2 :=
    if template_sources.isEmpty then rules1
    else { rules1 with include_dirs := rules1.include_dirs ++ [codegen_subdir] }
  let public_header_compile_rules := { rules2 with syntax_only := true }
  let src_header_compile_rules := lib.apply_private_rules public_header_compile_rules
  let compile_rules := lib.apply_private_rules rules2
  let lib_compile_files := lib_sources.map
    (fun sf => compile_file_plan.mk compile_rules sf qual_name (out_dir ++ ["obj"]))
  let header_indep_plan :=
    (header_sources.map (fun sf =>
        compile_file_plan.mk src_header_compile_rules sf qual_name
          (out_dir ++ ["timestamps"])))
    ++ (public_header_sources.map (fun sf =>
        compile_file_plan.mk public_header_compile_rules sf qual_name
          (out_dir ++ ["timestamps"])))
  let archive : Option create_archive_plan :=
    if lib_compile_files.isEmpty then none
    else some ⟨lib.manifest_name, qual_name, out_dir, lib_compile_files⟩
  let links := lib.manifest_uses ++ lib.manifest_links
  let test_rules := { compile_rules with uses := compile_rules.uses ++ params.test_uses }
  let test_links := links ++ params.test_uses
  let link_executables := (app_sources ++ test_sources).filterMap
    (link_exe_entry params compile_rules test_rules links test_links out_dir qual_name)
  let render_templates := template_sources.map
    (fun sf => render_template_plan.mk sf codegen_subdir)
  (⟨qual_name, out_dir, archive, link_executables, render_templates, header_indep_plan⟩,
   warnings)

/-! ## Plan lemmas -/

lemma filter_ne_nil_iff_exists {α : Type} (p : α → Bool) (l : List α) :
    (l.filter p ≠ []) ↔ ∃ a ∈ l, p a := by
  rw [ne_eq, List.filter_eq_nil_iff]
  push_neg
  simp

/-- C6: the plan contains an archive plan iff at least one file classified
as kind `source` exists under the library's `src/` directory. -/
theorem library_plan_archive_iff_lib_source (lib : library_root)
    (params : library_build_params) (qual_name_arg : Option String) :
    ((library_plan.create lib params qual_name_arg).1.archive.isSome = true)
      ↔ ∃ sf ∈ src_list lib, sf.kind = source_kind.source := by
  have harch : (library_plan.create lib params qual_name_arg).1.archive.isSome
      = !((src_list lib).filter (fun sf => sf.kind = source_kind.source)).isEmpty := by
    simp only [library_plan.create]
    rcases h : (src_list lib).filter (fun sf => sf.kind = source_kind.source)
      with _ | ⟨a, t⟩ <;> simp [h]
  rw [harch]
  rcases h : (src_list lib).filter (fun sf => sf.kind = source_kind.source)
    with _ | ⟨a, t⟩
  · simp only [h, List.isEmpty_nil, Bool.not_true]
    constructor
    · intro hfalse
      exact absurd hfalse (by simp)
    · rintro ⟨sf, hmem, hk⟩
      have hin : sf ∈ (src_list lib).filter (fun sf => sf.kind = source_kind.source) :=
        List.mem_filter.mpr ⟨hmem, by simp [hk]⟩
      rw [h] at hin
      exact absurd hin (by simp)
  · simp only [h, List.isEmpty_cons, Bool.not_false, true_iff]
    have ha : a ∈ (src_list lib).filter (fun sf => sf.kind = source_kind.source) := by
      rw [h]
      exact List.mem_cons_self a t
    have := List.mem_filter.mp ha
    exact ⟨a, this.1, by simpa using this.2⟩

lemma filterMap_length_isSome_const {α β : Type} (f : α → Option β) (b : Bool) :
    ∀ l : List α, (∀ a ∈ l, (f a).isSome = b) →
      (l.filterMap f).length = if b then l.length else 0 := by
  intro l
  induction l with
  | nil => intro _; rcases b <;> simp
  | cons a t ih =>
    intro h
    have ha := h a (by simp)
    have ht := ih (fun x hx => h x (by simp [hx]))
    rcases hfa : f a with _ | v
    · rw [hfa] at ha
      simp only [Option.isSome_none] at ha
      rw [List.filterMap_cons, hfa, ht, ← ha]
      simp
    · rw [hfa] at ha
      simp only [Option.isSome_some] at ha
      rw [List.filterMap_cons, hfa, ← ha]
      simp only [List.length_cons, List.length_cons, if_pos rfl]
      rw [ht, ← ha]
      simp

lemma link_exe_entry_app (params : library_build_params)
    (cr tr : shared_compile_file_rules) (L TL : List String)
    (OD : BuildPath) (QN : String) (source : source_file)
    (h : source.kind = source_kind.app) :
    link_exe_entry params cr tr L TL OD QN source
      = if params.build_apps then
          some ⟨L, compile_file_plan.mk cr source QN (OD ++ ["obj"]),
                OD ++ source.relative_path.dropLast,
                pstem (pstem (path_filename source.path))⟩
        else none := by
  unfold link_exe_entry
  have hne : ¬ (source.kind = source_kind.test) := by rw [h]; simp
  rcases hb : params.build_apps <;> simp [hne, hb]

lemma link_exe_entry_test (params : library_build_params)
    (cr tr : shared_compile_file_rules) (L TL : List String)
    (OD : BuildPath) (QN : String) (source : source_file)
    (h : source.kind = source_kind.test) :
    link_exe_entry params cr tr L TL OD QN source
      = if params.build_tests then
          some ⟨TL, compile_file_plan.mk tr source QN (OD ++ ["obj"]),
                (OD ++ ["test"]) ++ source.relative_path.dropLast,
                pstem (pstem (path_filename source.path))⟩
        else none := by
  unfold link_exe_entry
  rcases hb : params.build_tests <;> simp [h, hb]

lemma link_exe_count (params : library_build_params)
    (cr tr : shared_compile_file_rules) (L TL : List String)
    (OD : BuildPath) (QN : String) (srcs : List source_file) :
    (((srcs.filter (fun sf => sf.kind = source_kind.app))
        ++ (srcs.filter (fun sf => sf.kind = source_kind.test))).filterMap
          (link_exe_entry params cr tr L TL OD QN)).length
      = (if params.build_apps
         then (srcs.filter (fun sf => sf.kind = source_kind.app)).length else 0)
        + (if params.build_tests
           then (srcs.filter (fun sf => sf.kind = source_kind.test)).length else 0) := by
  rw [List.filterMap_append, List.length_append]
  congr 1
  · apply filterMap_length_isSome_const
    intro sf hmem
    have hk := List.mem_filter.mp hmem
    rw [link_exe_entry_app params cr tr L TL OD QN sf (by simpa using hk.2)]
    rcases params.build_apps <;> simp
  · apply filterMap_length_isSome_const
    intro sf hmem
    have hk := List.mem_filter.mp hmem
    rw [link_exe_entry_test params cr tr L TL OD QN sf (by simpa using hk.2)]
    rcases params.build_tests <;> simp

lemma link_exe_shape (params : library_build_params)
    (cr tr : shared_compile_file_rules) (L TL : List String)
    (OD : BuildPath) (QN : String) (srcs : List source_file) :
    ∀ lp ∈ ((srcs.filter (fun sf => sf.kind = source_kind.app))
        ++ (srcs.filter (fun sf => sf.kind = source_kind.test))).filterMap
          (link_exe_entry params cr tr L TL OD QN),
      (lp.compile.source.kind = source_kind.test →
        ∃ rest, lp.subdir = (OD ++ ["test"]) ++ rest)
      ∧ lp.stem = pstem (pstem (path_filename lp.compile.source.path))
      ∧ lp.links = (if lp.compile.source.kind = source_kind.test then TL else L) := by
  intro lp hlp
  obtain ⟨sf, hsf, hf⟩ := List.mem_filterMap.mp hlp
  rcases List.mem_append.mp hsf with hm | hm
  · have hk : sf.kind = source_kind.app := by simpa using (List.mem_filter.mp hm).2
    rw [link_exe_entry_app params cr tr L TL OD QN sf hk] at hf
    rcases hb : params.build_apps
    · rw [hb] at hf
      exact absurd hf (by simp)
    · rw [hb] at hf
      simp only [if_pos rfl] at hf
      cases hf
      refine ⟨?_, rfl, ?_⟩
      · intro hcon
        rw [hk] at hcon
        exact absurd hcon (by simp)
      · rw [if_neg (by rw [hk]; simp)]
  · have hk : sf.kind = source_kind.test := by simpa using (List.mem_filter.mp hm).2
    rw [link_exe_entry_test params cr tr L TL OD QN sf hk] at hf
    rcases hb : params.build_tests
    · rw [hb] at hf
      exact absurd hf (by simp)
    · rw [hb] at hf
      simp only [if_pos rfl] at hf
      cases hf
      exact ⟨fun _ => ⟨sf.relative_path.dropLast, rfl⟩, rfl, by rw [if_pos hk]⟩

/-- C7: the number of link-executable plans equals the number of `app`
sources (when `build_apps`) plus the number of `test` sources (when
`build_tests`); every test link plan's output subdirectory lies under
`out_dir/test`; every plan's stem is the source filename with two
extensions stripped, so `foo.test.cpp` yields stem `foo`. -/
theorem library_plan_link_executables_spec (lib : library_root)
    (params : library_build_params) (qual_name_arg : Option String) :
    ((library_plan.create lib params qual_name_arg).1.link_executables.length
      = (if params.build_apps
         then ((src_list lib).filter (fun sf => sf.kind = source_kind.app)).length else 0)
        + (if params.build_tests
           then ((src_list lib).filter (fun sf => sf.kind = source_kind.test)).length
           else 0))
    ∧ (∀ lp ∈ (library_plan.create lib params qual_name_arg).1.link_executables,
        (lp.compile.source.kind = source_kind.test →
          ∃ rest, lp.subdir = ((params.out_subdir ++ lib.path_namespace) ++ ["test"]) ++ rest)
        ∧ lp.stem = pstem (pstem (path_filename lp.compile.source.path)))
    ∧ pstem (pstem "foo.test.cpp") = "foo" := by
  refine ⟨?_, ?_, by decide⟩
  · simp only [library_plan.create]
    exact link_exe_count params _ _ _ _ _ _ (src_list lib)
  · simp only [library_plan.create]
    intro lp hlp
    have h := link_exe_shape params _ _ _ _ _ _ (src_list lib) lp hlp
    exact ⟨h.1, h.2.1⟩

/-- C8 (amended): the link set of an app executable is the concatenation of
the manifest's `uses` followed by the manifest's `links`, in that order,
with duplicates preserved (no deduplication happens); the test link set is
that list with the params' `test_uses` appended. -/
theorem library_plan_links_concat_in_order (lib : library_root)
    (params : library_build_params) (qual_name_arg : Option String) :
    ∀ lp ∈ (library_plan.create lib params qual_name_arg).1.link_executables,
      lp.links = if lp.compile.source.kind = source_kind.test
                 then (lib.manifest_uses ++ lib.manifest_links) ++ params.test_uses
                 else lib.manifest_uses ++ lib.manifest_links := by
  simp only [library_plan.create]
  intro lp hlp
  exact (link_exe_shape params _ _ _ _ _ _ (src_list lib) lp hlp).2.2

/-- A library whose manifest `uses` and `links` both name usage `a`, with a
single app source. -/
def dup_links_lib : library_root :=
  { path_namespace := ["mylib"]
    manifest_name := "mylib"
    manifest_uses := ["a"]
    manifest_links := ["a"]
    src_sources := some [⟨["r", "src", "m.main.cpp"], ["m.main.cpp"], .app⟩]
    include_sources := none
    apply_public_rules := fun r => r
    apply_private_rules := fun r => r }

/-- Build parameters enabling apps only. -/
def dup_links_params : library_build_params :=
  { out_subdir := ["out"], build_tests := false, build_apps := true
    enable_warnings := false, test_uses := [] }

/-- Counterexample for C8 as stated: with `uses = [a]` and `links = [a]`
the app link plan's link set is `[a, a]` — the usage name `a` appears
twice, so the set is not deduplicated by first occurrence. -/
theorem library_plan_links_dedup_counterexample :
    ((library_plan.create dup_links_lib dup_links_params none).1.link_executables.map
        (fun lp => lp.links)) = [["a", "a"]]
    ∧ ¬ (["a", "a"] : List String).Nodup := by
  decide

/-- The single app link plan produced for `dup_links_lib`. -/
def dup_links_plan : link_executable_plan :=
  ⟨["a", "a"],
   ⟨⟨[], ["a"], false, false⟩,
    ⟨["r", "src", "m.main.cpp"], ["m.main.cpp"], .app⟩,
    "mylib",
    ["out", "mylib", "obj"]⟩,
   ["out", "mylib"],
   "m"⟩

/-- Witness for C8 (amended), applying the theorem to the concrete app link
plan of `dup_links_lib`. -/
theorem library_plan_links_concat_in_order_witness :
    dup_links_plan.links
      = if dup_links_plan.compile.source.kind = source_kind.test
        then (dup_links_lib.manifest_uses ++ dup_links_lib.manifest_links)
             ++ dup_links_params.test_uses
        else dup_links_lib.manifest_uses ++ dup_links_lib.manifest_links :=
  library_plan_links_concat_in_order dup_links_lib dup_links_params none
    dup_links_plan (by decide)

/-- C10: header templates under `include/` are silently dropped: when
`include/` holds only headers and header templates no warning path is
collected (templates count as headers for the warning check), every
header-independence node stems from a file of kind `header`, and the
rendered templates are exactly the header templates found under `src/`. -/
theorem library_plan_include_header_templates_dropped (lib : library_root)
    (params : library_build_params) (qual_name_arg : Option String) :
    ((∀ sf ∈ include_list lib,
        sf.kind = source_kind.header ∨ sf.kind = source_kind.header_template) →
      (library_plan.create lib params qual_name_arg).2 = [])
    ∧ (∀ cf ∈ (library_plan.create lib params qual_name_arg).1.header_indep,
        cf.source.kind = source_kind.header)
    ∧ ((library_plan.create lib params qual_name_arg).1.templates.map
          (fun rt => rt.source)
        = (src_list lib).filter (fun sf => sf.kind = source_kind.header_template)) := by
  refine ⟨?_, ?_, ?_⟩
  · intro hall
    simp only [library_plan.create]
    have hfil : (include_list lib).filter (fun sf => !(is_header sf.kind)) = [] := by
      rw [List.filter_eq_nil_iff]
      intro sf hmem hcon
      rcases hall sf hmem with h | h <;> simp [is_header, h] at hcon
    rw [hfil]
    rfl
  · simp only [library_plan.create]
    intro cf hcf
    rcases List.mem_append.mp hcf with hm | hm
    · obtain ⟨sf, hsf, rfl⟩ := List.mem_map.mp hm
      rcases hb : params.build_tests
      · rw [hb] at hsf
        exact absurd hsf (by simp)
      · rw [hb] at hsf
        simp only [if_pos rfl] at hsf
        simpa using (List.mem_filter.mp hsf).2
    · obtain ⟨sf, hsf, rfl⟩ := List.mem_map.mp hm
      rcases hb : params.build_tests
      · rw [hb] at hsf
        exact absurd hsf (by simp)
      · rw [hb] at hsf
        simp only [if_pos rfl] at hsf
        simpa using (List.mem_filter.mp hsf).2
  · simp only [library_plan.create]
    rw [List.map_map]
    apply List.map_id''
    intro x
    rfl
